import Mathlib

/-
Verification of the corpus-based stoplist builder (`cltk/stop/stop.py`,
class `CorpusStoplist`).

Modelling conventions:
* A document is its sequence of tokens (`Doc := List String`); tokenization
  and the `lower` / punctuation / number normalization are external
  collaborators, represented by the `preprocess` parameter.
* The count vectorizer is modelled concretely on the token sequences:
  the vocabulary is the sorted list of distinct tokens and `dtm[d][t]` is
  the number of occurrences of term `t` in document `d`.  Like sklearn's
  `CountVectorizer`, vectorization fails with a `ValueError` reading
  "empty vocabulary; perhaps the documents only contain stop words" when
  the corpus yields no terms.  The TF-IDF vectorizer is kept abstract
  (parameter `tfidfFn`), since only its column sums reach the output.
* Matrix arithmetic is exact rational arithmetic.  `np.log10` is an
  abstract parameter `log10 : ℚ → ℚ`.  Note that numpy division by a
  zero document length emits a RuntimeWarning and produces non-finite
  values but raises no exception; the model likewise raises nothing
  there (rational division by zero yields 0).
* Python's `set(...)` has an unspecified (hash-dependent) iteration
  order; it is modelled by a parameter `pySet : List String → List String`
  assumed (where needed) to produce some permutation of the distinct
  elements.  Calling `.extend` on a set raises `AttributeError`, which the
  model reproduces on the corresponding path.
-/

namespace CltkStop

/-- A document, modelled as its token sequence (tokenization is external). -/
abbrev Doc := List String

/-- Python exceptions that can escape `build_stoplist` in the model. -/
inductive PyError where
  | valueError (msg : String)
  | attributeError (msg : String)
deriving DecidableEq

/-- Strict lexicographic comparison of character sequences by code point:
the order Python uses to compare strings. -/
def lexLt : List Char → List Char → Bool
  | [], [] => false
  | [], _ :: _ => true
  | _ :: _, [] => false
  | a :: as, b :: bs =>
    decide (a.toNat < b.toNat) || (decide (a.toNat = b.toNat) && lexLt as bs)

/-- Python string comparison `a <= b` (code-point lexicographic order). -/
def pyLe (a b : String) : Bool := !(lexLt b.data a.data)

/-- Index of the first occurrence of a term in a list (its rank), 0-based;
returns the length when absent. -/
def idxOfStr : List String → String → ℕ
  | [], _ => 0
  | a :: l, t => if a = t then 0 else idxOfStr l t + 1

/-- Number of occurrences of token `t` in document `d` (one dtm cell). -/
def countTok (d : Doc) (t : String) : ℕ := (d.filter (fun x => x == t)).length

/-- The vectorizer vocabulary: sorted list of the distinct corpus tokens. -/
def vocabOf (texts : List Doc) : List String :=
  (texts.flatten.dedup).insertionSort (fun a b => pyLe a b = true)

/-- The document-term matrix: row per document, column per vocabulary term. -/
def dtmOf (texts : List Doc) : List (List ℚ) :=
  texts.map (fun d => (vocabOf texts).map (fun t => (countTok d t : ℚ)))

/-- Message of the ValueError sklearn raises when vectorization finds no terms. -/
def emptyVocabMsg : String :=
  "empty vocabulary; perhaps the documents only contain stop words"

/-- Models `_make_dtm_vocab` (sklearn `CountVectorizer.fit_transform` plus
`get_feature_names`): fails with a ValueError when the vocabulary is empty. -/
def make_dtm_vocab (texts : List Doc) :
    Except PyError (List (List ℚ) × List String) :=
  if vocabOf texts = [] then .error (.valueError emptyVocabMsg)
  else .ok (dtmOf texts, vocabOf texts)

/-- Models `_get_raw_lengths`: the token count of each document. -/
def raw_lengths (texts : List Doc) : List ℕ := texts.map List.length

/-- Models `_get_probabilities`: `dtm / length_array`, each row divided by its
document length.  (numpy raises nothing on zero lengths; nor does this.) -/
def get_probabilities (dtm : List (List ℚ)) (lengths : List ℕ) :
    List (List ℚ) :=
  List.zipWith (fun row n => row.map (fun x => x / (n : ℚ))) dtm lengths

/-- Models the statement `bP = dtm / sum(raw_lengths)`. -/
def backgroundP (dtm : List (List ℚ)) (total : ℕ) : List (List ℚ) :=
  dtm.map (fun row => row.map (fun x => x / (total : ℚ)))

/-- Column sums of a matrix with `M` columns (`np.ravel(m.sum(axis=0))`). -/
def colSums (m : List (List ℚ)) (M : ℕ) : List ℚ :=
  (List.range M).map (fun j => (m.map (fun row => row.getD j 0)).sum)

/-- Models `_get_mean_probabilities`: column sums of `P` divided by `N`. -/
def get_mean_probabilities (P : List (List ℚ)) (N M : ℕ) : List ℚ :=
  (colSums P M).map (fun x => x / (N : ℚ))

/-- Models `_get_variance_probabilities`: column sums of `(P - bP) ** 2`
divided by `N`. -/
def get_variance_probabilities (bP P : List (List ℚ)) (N M : ℕ) : List ℚ :=
  (colSums (List.zipWith (fun r1 r2 => List.zipWith (fun a b => (a - b) ^ 2) r1 r2) P bP) M).map
    (fun x => x / (N : ℚ))

/-- One cell of `P * np.where(P != 0, np.log10(1/P), 0)`. -/
def entCell (log10 : ℚ → ℚ) (x : ℚ) : ℚ :=
  x * (if x ≠ 0 then log10 (1 / x) else 0)

/-- Models `_get_entropies`: column sums of `P * where(P != 0, log10(1/P), 0)`. -/
def get_entropies (log10 : ℚ → ℚ) (P : List (List ℚ)) (M : ℕ) : List ℚ :=
  colSums (P.map (fun row => row.map (entCell log10))) M

/-- Models `_combine_vocabulary`: pair terms with scores, stable-sort
descending by score (`sorted(..., key=..., reverse=True)`), keep the terms. -/
def combine_vocabulary (vocab : List String) (measure : List ℚ) :
    List String :=
  ((vocab.zip measure).insertionSort (fun a b => b.2 ≤ a.2)).map Prod.fst

/-- One step of the `_borda_sort` score dictionary: add `v` to the score of
`e`, inserting `e` at the end when absent (Python dicts keep insertion
order). -/
def updateScore : List (String × ℕ) → String → ℕ → List (String × ℕ)
  | [], e, v => [(e, v)]
  | (k, s) :: rest, e, v =>
    if k = e then (k, s + v) :: rest else (k, s) :: updateScore rest e v

/-- The `_borda_sort` score dictionary: for each input list, each element of
`reversed(l)` at position `idx` contributes `idx` to its score. -/
def bordaScores (lists : List (List String)) : List (String × ℕ) :=
  lists.foldl
    (fun m l => (l.reverse.enum).foldl (fun m p => updateScore m p.2 p.1) m) []

/-- Models `_borda_sort`: stable sort of the score dictionary entries,
descending by score (`sorted(scores.keys(), key=..., reverse=True)`). -/
def borda_sort (lists : List (List String)) : List String :=
  ((bordaScores lists).insertionSort (fun a b => b.2 ≤ a.2)).map Prod.fst

/-- The basis names `build_stoplist` accepts. -/
def supportedBases : List String :=
  ["frequency", "tfidf", "mean", "variance", "entropy", "zou"]

/-- The basis dispatch of `build_stoplist` (lines 275-313 of the source).
Returns the selected/truncated term list together with a flag recording
whether the Python value at this point is a `set` (the entropy path) rather
than a list; an unsupported basis raises the ValueError of line 313. -/
def basisBranch (log10 : ℚ → ℚ) (pySet : List String → List String)
    (vocab : List String) (dtm tfidfM P : List (List ℚ)) (raw : List ℕ)
    (N M : ℕ) (basis : String) (size : ℕ) :
    Except PyError (List String × Bool) :=
  if basis = "frequency" then
    .ok ((combine_vocabulary vocab (colSums dtm M)).take size, false)
  else if basis = "tfidf" then
    .ok ((combine_vocabulary vocab (colSums tfidfM M)).take size, false)
  else if basis = "mean" then
    .ok ((combine_vocabulary vocab (get_mean_probabilities P N M)).take size,
      false)
  else if basis = "variance" then
    .ok ((combine_vocabulary vocab
      (get_variance_probabilities (backgroundP dtm raw.sum) P N M)).take size,
      false)
  else if basis = "entropy" then
    .ok (pySet ((combine_vocabulary vocab (get_entropies log10 P M)).take size),
      true)
  else if basis = "zou" then
    .ok ((borda_sort
      [combine_vocabulary vocab (get_mean_probabilities P N M),
       combine_vocabulary vocab
         (get_variance_probabilities (backgroundP dtm raw.sum) P N M),
       combine_vocabulary vocab (get_entropies log10 P M)]).take size, false)
  else .error (.valueError ("Basis " ++ basis ++ " not supported."))

/-- The tail of `build_stoplist` (lines 315-324): exclude filter, include
extension, optional lexicographic sort.  When the stops value is still a
Python set (entropy basis, empty exclude list) the `stops.extend(...)` call
raises an AttributeError, reproduced here.  The include extension checks
membership against the growing list, like the generator the source feeds to
`extend`. -/
def assemble (stops : List String) (isSet : Bool) (excl incl : List String)
    (sort_words : Bool) : Except PyError (List String) :=
  let p := if excl ≠ [] then (stops.filter (fun t => decide (t ∉ excl)), false)
    else (stops, isSet)
  if incl ≠ [] ∧ p.2 = true then
    .error (.attributeError "set object has no attribute extend")
  else
    let s2 := if incl ≠ [] then
        incl.foldl (fun s item => if item ∈ s then s else s ++ [item]) p.1
      else p.1
    if sort_words then .ok (s2.insertionSort (fun a b => pyLe a b = true))
    else .ok s2

/-- The body of `build_stoplist` after preprocessing: vectorize (both
vectorizers, in source order), compute lengths and probabilities, dispatch on
the basis, then assemble. -/
def buildCore (log10 : ℚ → ℚ) (pySet : List String → List String)
    (tfidfFn : List Doc → Except PyError (List (List ℚ)))
    (texts2 : List Doc) (basis : String) (size : ℕ) (sort_words : Bool)
    (incl excl : List String) : Except PyError (List String) :=
  match make_dtm_vocab texts2 with
  | .error e => .error e
  | .ok dv =>
    match tfidfFn texts2 with
    | .error e => .error e
    | .ok tfidfM =>
      match basisBranch log10 pySet dv.2 dv.1 tfidfM
          (get_probabilities dv.1 (raw_lengths texts2)) (raw_lengths texts2)
          texts2.length dv.2.length basis size with
      | .error e => .error e
      | .ok sb => assemble sb.1 sb.2 excl incl sort_words

/-- Models `CorpusStoplist.build_stoplist`.  External capabilities appear as
parameters: `log10` (numpy), `pySet` (Python set iteration order), `tfidfFn`
(the TF-IDF vectorizer) and `preprocess` (lowercasing/punctuation/number
normalization plus tokenization, folded into one document transformer).
`inc_counts` is accepted and, exactly as in the source, never read. -/
def build_stoplist (log10 : ℚ → ℚ) (pySet : List String → List String)
    (tfidfFn : List Doc → Except PyError (List (List ℚ)))
    (preprocess : Bool → Bool → Bool → Doc → Doc)
    (texts : List Doc) (basis : String) (size : ℕ)
    (sort_words : Bool) (inc_counts : Bool)
    (lower remove_punctuation remove_numbers : Bool)
    (incl excl : List String) : Except PyError (List String) :=
  buildCore log10 pySet tfidfFn
    (texts.map (preprocess lower remove_punctuation remove_numbers))
    basis size sort_words incl excl

/-- The per-document probability matrix the pipeline computes for a corpus. -/
def probMatrix (texts : List Doc) : List (List ℚ) :=
  get_probabilities (dtmOf texts) (raw_lengths texts)

/-- The variance-basis score vector the pipeline computes for a corpus. -/
def varianceVec (texts : List Doc) : List ℚ :=
  get_variance_probabilities (backgroundP (dtmOf texts) (raw_lengths texts).sum)
    (probMatrix texts) texts.length (vocabOf texts).length

/-- The entropy-basis score vector the pipeline computes for a corpus. -/
def entropyVec (log10 : ℚ → ℚ) (texts : List Doc) : List ℚ :=
  get_entropies log10 (probMatrix texts) (vocabOf texts).length

/-- The score vector each single basis ranks by (`T` is the TF-IDF matrix
delivered by the external vectorizer). -/
def scoreVecT (log10 : ℚ → ℚ) (texts : List Doc) (T : List (List ℚ))
    (basis : String) : List ℚ :=
  if basis = "frequency" then colSums (dtmOf texts) (vocabOf texts).length
  else if basis = "tfidf" then colSums T (vocabOf texts).length
  else if basis = "mean" then
    get_mean_probabilities (probMatrix texts) texts.length (vocabOf texts).length
  else if basis = "variance" then varianceVec texts
  else if basis = "entropy" then entropyVec log10 texts
  else []

/-- The score a vector `vec` (aligned with `vocab`) assigns to a term. -/
def termScore (vocab : List String) (vec : List ℚ) (t : String) : ℚ :=
  vec.getD (idxOfStr vocab t) 0

/-- The assumption that `pySet` returns the distinct elements of its input in
some (hash-dependent, unspecified) order. -/
def PySetOk (pySet : List String → List String) : Prop :=
  ∀ l, (pySet l).Perm l.dedup

/-- Insert a key at the end of an accumulator unless already present:
the key order of a Python dict built by repeated assignment. -/
def insertKey (acc : List String) (x : String) : List String :=
  if x ∈ acc then acc else acc ++ [x]

/-- The order in which `_borda_sort` first encounters terms: each input list
is traversed from its end (`enumerate(reversed(l))`), lists in order. -/
def encounterKeys (lists : List (List String)) : List String :=
  ((lists.map List.reverse).flatten).foldl insertKey []

/-- Modelled from the spec: the Borda score of a term, summing over the input
lists its positional score `list length - 1 - rank` (0 when absent). -/
def bordaSpecScore (lists : List (List String)) (t : String) : ℕ :=
  (lists.map (fun l => if t ∈ l then l.length - 1 - idxOfStr l t else 0)).sum

/-- Modelled from the spec: every first-encountered term paired with its
accumulated Borda score. -/
def bordaSpecPairs (lists : List (List String)) : List (String × ℕ) :=
  (encounterKeys lists).map (fun t => (t, bordaSpecScore lists t))

/-- Modelled from the spec: all terms stably sorted descending by accumulated
Borda score, ties kept in first-encountered order. -/
def bordaSpecSort (lists : List (List String)) : List String :=
  ((bordaSpecPairs lists).insertionSort (fun a b => b.2 ≤ a.2)).map Prod.fst

/-- Total score a score dictionary assigns to a key (robust to duplicate
keys: sums the values of all entries with that key). -/
def accScore (m : List (String × ℕ)) (k : String) : ℕ :=
  ((m.filter (fun p => p.1 == k)).map Prod.snd).sum

/-- An identity preprocessor: documents are already normalized tokens. -/
def idPre : Bool → Bool → Bool → Doc → Doc := fun _ _ _ d => d

/-- A log10 stand-in that is identically zero. -/
def log10zero : ℚ → ℚ := fun _ => 0

/-- A log10 stand-in that is the identity. -/
def log10id : ℚ → ℚ := fun q => q

/-- A set-iteration order keeping first occurrences in list order. -/
def dedupSet : List String → List String := fun l => l.dedup

/-- A set-iteration order enumerating the distinct elements backwards; a
permissible hash order for a Python set. -/
def revSet : List String → List String := fun l => l.dedup.reverse

/-- A TF-IDF vectorizer stub returning a 1x1 matrix. -/
def tfOk1 : List Doc → Except PyError (List (List ℚ)) := fun _ => .ok [[1]]

/-- A TF-IDF vectorizer stub returning a 1x2 matrix. -/
def tfOk2 : List Doc → Except PyError (List (List ℚ)) := fun _ => .ok [[1, 1]]

/-- A log10 stand-in agreeing with the true base-10 logarithm, to three
decimal places, at the two points where a counterexample evaluates it
(log10(3/2) = 0.17609..., log10(3) = 0.47712...). -/
def log10cex (q : ℚ) : ℚ :=
  if q = 3 / 2 then 176 / 1000 else if q = 3 then 477 / 1000 else 0

section Lemmas

/-- C10: within `CorpusStoplist.build_stoplist` the `inc_counts` flag is
accepted but never read, so the output with `inc_counts=True` is identical to
the output with `inc_counts=False`; the result type is always a bare list of
term strings, never (term, score) pairs. -/
theorem build_stoplist_inc_counts_irrelevant (log10 : ℚ → ℚ)
    (pySet : List String → List String)
    (tfidfFn : List Doc → Except PyError (List (List ℚ)))
    (preprocess : Bool → Bool → Bool → Doc → Doc)
    (texts : List Doc) (basis : String) (size : ℕ) (sw lo rp rn : Bool)
    (incl excl : List String) :
    build_stoplist log10 pySet tfidfFn preprocess texts basis size sw true
      lo rp rn incl excl
    = build_stoplist log10 pySet tfidfFn preprocess texts basis size sw false
      lo rp rn incl excl := rfl

/-- Helper: an entry of a list of zeros is zero. -/
theorem getD_zero_of_forall (l : List ℚ) (j : ℕ) (h : ∀ y ∈ l, y = 0) :
    l.getD j 0 = 0 := by
  rcases lt_or_ge j l.length with hj | hj
  · rw [List.getD_eq_getElem _ _ hj]
    exact h _ (List.getElem_mem hj)
  · exact List.getD_eq_default _ _ hj

/-- Helper: the variance formula applied with background equal to the
per-document matrix yields only zeros. -/
theorem variance_self (P : List (List ℚ)) (N M : ℕ) :
    ∀ x ∈ get_variance_probabilities P P N M, x = 0 := by
  intro x hx
  unfold get_variance_probabilities at hx
  rw [List.zipWith_same] at hx
  simp only [List.mem_map, colSums, List.mem_range] at hx
  obtain ⟨y, ⟨j, hj, rfl⟩, rfl⟩ := hx
  have hz : ((List.map (fun r => List.zipWith (fun a b => (a - b) ^ 2) r r) P).map
      (fun row => row.getD j 0)).sum = 0 := by
    apply List.sum_eq_zero
    intro z hz
    simp only [List.mem_map] at hz
    obtain ⟨row, ⟨r, hr, rfl⟩, rfl⟩ := hz
    apply getD_zero_of_forall
    intro y hy
    rw [List.zipWith_same] at hy
    simp only [List.mem_map] at hy
    obtain ⟨a, ha, rfl⟩ := hy
    simp
  rw [hz, zero_div]

/-- C3: for a corpus of a single (non-empty) document the background matrix
`bP = dtm / sum(raw_lengths)` coincides with the per-document probability
matrix `P = dtm / length`, so every variance-basis score is exactly 0. -/
theorem variance_single_doc (d : Doc) (hd : d ≠ []) :
    ∀ x ∈ varianceVec [d], x = 0 := by
  have hPb : backgroundP (dtmOf [d]) (raw_lengths [d]).sum = probMatrix [d] := by
    simp [backgroundP, probMatrix, get_probabilities, raw_lengths, dtmOf,
      List.zipWith, Function.comp]
  unfold varianceVec
  rw [hPb]
  exact variance_self _ _ _

/-- Witness for C3 at the one-token document `["a"]`. -/
theorem variance_single_doc_witness :
    (["a"] : Doc) ≠ [] ∧ ∀ x ∈ varianceVec [["a"]], x = 0 :=
  ⟨by decide, variance_single_doc ["a"] (by decide)⟩

/-- Helper: a diagonal entry of the column sums. -/
theorem colSums_getD (m : List (List ℚ)) (M j : ℕ) (hj : j < M) :
    (colSums m M).getD j 0 = (m.map (fun row => row.getD j 0)).sum := by
  unfold colSums
  rw [List.getD_eq_getElem _ _ (by simpa using hj), List.getElem_map,
    List.getElem_range]

/-- Helper: the entropy cell of a zero probability is zero. -/
theorem entCell_zero (log10 : ℚ → ℚ) : entCell log10 0 = 0 := by
  simp [entCell]

/-- Helper: the probability matrix has one row per document. -/
theorem probMatrix_length (texts : List Doc) :
    (probMatrix texts).length = texts.length := by
  simp [probMatrix, get_probabilities, raw_lengths, dtmOf]

/-- C4: the entropy score of a term is the sum over documents of
`P * log10(1/P)` with zero cells contributing 0; a term with identical
per-document probability `p ≠ 0` in every document scores exactly
`N * (p * log10(1/p))`. -/
theorem entropy_uniform (log10 : ℚ → ℚ) (texts : List Doc) (j : ℕ) (p : ℚ)
    (hj : j < (vocabOf texts).length) (hp : p ≠ 0)
    (hall : ∀ row ∈ probMatrix texts, row.getD j 0 = p) :
    (entropyVec log10 texts).getD j 0
    = (texts.length : ℚ) * (p * log10 (1 / p)) := by
  unfold entropyVec get_entropies
  rw [colSums_getD _ _ _ hj, List.map_map]
  have hrow : ∀ row ∈ probMatrix texts,
      ((fun row => row.getD j 0) ∘ fun row => row.map (entCell log10)) row
      = entCell log10 p := by
    intro row hr
    show (row.map (entCell log10)).getD j 0 = entCell log10 p
    rw [← entCell_zero log10, List.getD_map, hall row hr]
  rw [List.map_congr_left hrow]
  have hconst : (probMatrix texts).map (fun _ => entCell log10 p)
      = List.replicate (probMatrix texts).length (entCell log10 p) := by
    rw [← List.map_const]
    rfl
  rw [hconst, List.sum_replicate, probMatrix_length, nsmul_eq_mul]
  congr 1
  simp [entCell, hp]

/-- Witness for C4: a term present once in each of two one-token documents
(`p = 1`), with the identity standing in for log10. -/
theorem entropy_uniform_witness :
    (entropyVec log10id [["a"], ["a"]]).getD 0 0
    = (([["a"], ["a"]] : List Doc).length : ℚ) * (1 * log10id (1 / 1)) :=
  entropy_uniform log10id [["a"], ["a"]] 0 1 (by decide) one_ne_zero
    (by norm_num +decide [probMatrix, get_probabilities, raw_lengths, dtmOf,
      vocabOf, countTok, List.zipWith, List.insertionSort, List.orderedInsert])

/-- Helper: when the stops value is not a set, `assemble` never raises. -/
theorem assemble_ok_of_not_set (stops : List String) (excl incl : List String)
    (sw : Bool) :
    ∃ l, assemble stops false excl incl sw = .ok l := by
  by_cases hexcl : excl = [] <;> cases sw <;>
    simp [assemble, hexcl] <;> exact ⟨_, rfl⟩

/-- Helper: with an empty include list, `assemble` never raises. -/
theorem assemble_ok_of_incl_nil (stops : List String) (isSet : Bool)
    (excl : List String) (sw : Bool) :
    ∃ l, assemble stops isSet excl [] sw = .ok l := by
  by_cases hexcl : excl = [] <;> cases sw <;>
    simp [assemble, hexcl] <;> exact ⟨_, rfl⟩

/-- Helper: with empty include and exclude lists, `assemble` returns a
permutation of its input (identity or the final lexicographic sort). -/
theorem assemble_nil_nil (stops : List String) (isSet : Bool) (sw : Bool)
    (stops' : List String) (h : assemble stops isSet [] [] sw = .ok stops') :
    stops'.Perm stops := by
  cases sw <;> simp [assemble] at h
  · exact h ▸ List.Perm.refl _
  · exact h ▸ List.perm_insertionSort _ _

/-- Helper: the include-extension fold only appends elements of the include
list. -/
theorem not_mem_extendFold (incl : List String) (t : String) (hti : t ∉ incl) :
    ∀ s : List String, t ∉ s →
      t ∉ incl.foldl (fun s item => if item ∈ s then s else s ++ [item]) s := by
  induction incl with
  | nil => intro s hs; exact hs
  | cons i rest ih =>
    intro s hs
    have hti' : t ∉ rest := fun hr => hti (List.mem_cons_of_mem _ hr)
    have hne : t ≠ i := fun he => hti (he ▸ List.mem_cons_self _ _)
    simp only [List.foldl_cons]
    apply ih hti'
    by_cases hc : i ∈ s
    · simpa [hc] using hs
    · simp only [hc, if_false, ite_false]
      intro hm
      rcases List.mem_append.mp hm with h1 | h1
      · exact hs h1
      · exact hne (List.mem_singleton.mp h1)

/-- Helper: a term of the exclude list that is not in the include list never
survives `assemble`. -/
theorem assemble_excl_not_mem (stops : List String) (isSet : Bool)
    (excl incl : List String) (sw : Bool) (stops' : List String) (t : String)
    (h : assemble stops isSet excl incl sw = .ok stops')
    (ht : t ∈ excl) (hti : t ∉ incl) : t ∉ stops' := by
  have hexcl : excl ≠ [] := List.ne_nil_of_mem ht
  have hnf : t ∉ stops.filter (fun x => decide (x ∉ excl)) := by
    intro hm
    rcases List.mem_filter.mp hm with ⟨-, hb⟩
    exact (of_decide_eq_true hb) ht
  simp only [assemble, hexcl, ne_eq, not_false_eq_true, if_true, ite_true] at h
  by_cases hincl : incl = []
  · subst hincl
    simp only [ne_eq, not_true_eq_false, false_and, if_false, ite_false] at h
    cases sw <;> simp only [Bool.false_eq_true, if_false, ite_false, if_true,
      ite_true, Except.ok.injEq] at h
    · exact h ▸ hnf
    · intro hm
      exact hnf ((List.perm_insertionSort _ _).mem_iff.mp (h ▸ hm))
  · have hfold := not_mem_extendFold incl t hti _ hnf
    simp only [hincl, ne_eq, not_false_eq_true, true_and, if_true, ite_true,
      Bool.false_eq_true, false_and, if_false, ite_false] at h
    cases sw <;> simp only [Bool.false_eq_true, if_false, ite_false, if_true,
      ite_true, Except.ok.injEq] at h
    · exact h ▸ hfold
    · intro hm
      exact hfold ((List.perm_insertionSort _ _).mem_iff.mp (h ▸ hm))

/-- Helper: a successful count vectorization means a non-empty vocabulary and
pins down the returned matrix and vocabulary. -/
theorem make_dtm_vocab_ok (texts2 : List Doc) (dv : List (List ℚ) × List String)
    (h : make_dtm_vocab texts2 = .ok dv) :
    vocabOf texts2 ≠ [] ∧ dv = (dtmOf texts2, vocabOf texts2) := by
  by_cases hv : vocabOf texts2 = []
  · rw [make_dtm_vocab, if_pos hv] at h
    exact Except.noConfusion h
  · rw [make_dtm_vocab, if_neg hv] at h
    exact ⟨hv, (Except.ok.injEq _ _ ▸ h).symm⟩

/-- Helper: once both vectorizers succeed, `buildCore` is the basis dispatch
followed by assembly. -/
theorem buildCore_eq (log10 : ℚ → ℚ) (pySet : List String → List String)
    (tfidfFn : List Doc → Except PyError (List (List ℚ))) (texts2 : List Doc)
    (basis : String) (size : ℕ) (sw : Bool) (incl excl : List String)
    (T : List (List ℚ)) (hv : vocabOf texts2 ≠ [])
    (htf : tfidfFn texts2 = .ok T) :
    buildCore log10 pySet tfidfFn texts2 basis size sw incl excl
    = match basisBranch log10 pySet (vocabOf texts2) (dtmOf texts2) T
        (probMatrix texts2) (raw_lengths texts2) texts2.length
        (vocabOf texts2).length basis size with
      | .error e => .error e
      | .ok sb => assemble sb.1 sb.2 excl incl sw := by
  unfold buildCore make_dtm_vocab
  rw [if_neg hv, htf]
  rfl

/-- Helper: the frequency branch of the dispatch. -/
theorem basisBranch_frequency (log10 : ℚ → ℚ)
    (pySet : List String → List String) (vocab : List String)
    (dtm tfidfM P : List (List ℚ)) (raw : List ℕ) (N M size : ℕ) :
    basisBranch log10 pySet vocab dtm tfidfM P raw N M "frequency" size
    = .ok ((combine_vocabulary vocab (colSums dtm M)).take size, false) := rfl

/-- Helper: the tfidf branch of the dispatch. -/
theorem basisBranch_tfidf (log10 : ℚ → ℚ)
    (pySet : List String → List String) (vocab : List String)
    (dtm tfidfM P : List (List ℚ)) (raw : List ℕ) (N M size : ℕ) :
    basisBranch log10 pySet vocab dtm tfidfM P raw N M "tfidf" size
    = .ok ((combine_vocabulary vocab (colSums tfidfM M)).take size, false) := rfl

/-- Helper: the mean branch of the dispatch. -/
theorem basisBranch_mean (log10 : ℚ → ℚ)
    (pySet : List String → List String) (vocab : List String)
    (dtm tfidfM P : List (List ℚ)) (raw : List ℕ) (N M size : ℕ) :
    basisBranch log10 pySet vocab dtm tfidfM P raw N M "mean" size
    = .ok ((combine_vocabulary vocab (get_mean_probabilities P N M)).take size,
      false) := rfl

/-- Helper: the variance branch of the dispatch. -/
theorem basisBranch_variance (log10 : ℚ → ℚ)
    (pySet : List String → List String) (vocab : List String)
    (dtm tfidfM P : List (List ℚ)) (raw : List ℕ) (N M size : ℕ) :
    basisBranch log10 pySet vocab dtm tfidfM P raw N M "variance" size
    = .ok ((combine_vocabulary vocab
        (get_variance_probabilities (backgroundP dtm raw.sum) P N M)).take size,
      false) := rfl

/-- Helper: the entropy branch of the dispatch; the flag records that the
Python value here is a set. -/
theorem basisBranch_entropy (log10 : ℚ → ℚ)
    (pySet : List String → List String) (vocab : List String)
    (dtm tfidfM P : List (List ℚ)) (raw : List ℕ) (N M size : ℕ) :
    basisBranch log10 pySet vocab dtm tfidfM P raw N M "entropy" size
    = .ok (pySet ((combine_vocabulary vocab (get_entropies log10 P M)).take size),
      true) := rfl

/-- Helper: the zou branch of the dispatch. -/
theorem basisBranch_zou (log10 : ℚ → ℚ)
    (pySet : List String → List String) (vocab : List String)
    (dtm tfidfM P : List (List ℚ)) (raw : List ℕ) (N M size : ℕ) :
    basisBranch log10 pySet vocab dtm tfidfM P raw N M "zou" size
    = .ok ((borda_sort
        [combine_vocabulary vocab (get_mean_probabilities P N M),
         combine_vocabulary vocab
           (get_variance_probabilities (backgroundP dtm raw.sum) P N M),
         combine_vocabulary vocab (get_entropies log10 P M)]).take size,
      false) := rfl

/-- Helper: an unsupported basis reaches the final else branch. -/
theorem basisBranch_unsupported (log10 : ℚ → ℚ)
    (pySet : List String → List String) (vocab : List String)
    (dtm tfidfM P : List (List ℚ)) (raw : List ℕ) (N M size : ℕ)
    (basis : String) (hb : basis ∉ supportedBases) :
    basisBranch log10 pySet vocab dtm tfidfM P raw N M basis size
    = .error (.valueError ("Basis " ++ basis ++ " not supported.")) := by
  simp only [supportedBases, List.mem_cons, List.not_mem_nil, or_false,
    not_or] at hb
  obtain ⟨h1, h2, h3, h4, h5, h6⟩ := hb
  simp [basisBranch, h1, h2, h3, h4, h5, h6]

/-- C5 (amended): an unsupported basis name makes `build_stoplist` raise the
ValueError of source line 313, whose message carries the offending name —
but only after the document-term matrix, TF-IDF matrix and probability
matrix have been computed (the vectorizers run first, witness the
counterexample below). -/
theorem unsupported_basis_error (log10 : ℚ → ℚ)
    (pySet : List String → List String)
    (tfidfFn : List Doc → Except PyError (List (List ℚ)))
    (preprocess : Bool → Bool → Bool → Doc → Doc) (texts : List Doc)
    (basis : String) (size : ℕ) (sw ic lo rp rn : Bool)
    (incl excl : List String) (T : List (List ℚ))
    (hb : basis ∉ supportedBases)
    (hv : vocabOf (texts.map (preprocess lo rp rn)) ≠ [])
    (htf : tfidfFn (texts.map (preprocess lo rp rn)) = .ok T) :
    build_stoplist log10 pySet tfidfFn preprocess texts basis size sw ic
      lo rp rn incl excl
    = .error (.valueError ("Basis " ++ basis ++ " not supported.")) := by
  unfold build_stoplist
  rw [buildCore_eq _ _ _ _ _ _ _ _ _ T hv htf,
    basisBranch_unsupported _ _ _ _ _ _ _ _ _ _ _ hb]

/-- Witness for the amended C5 at basis name "bogus". -/
theorem unsupported_basis_error_witness :
    ("bogus" ∉ supportedBases) ∧
    build_stoplist log10zero dedupSet tfOk1 idPre [["a"]] "bogus" 100 true
      false true true true [] []
    = .error (.valueError ("Basis " ++ "bogus" ++ " not supported.")) :=
  ⟨by decide, unsupported_basis_error log10zero dedupSet tfOk1 idPre [["a"]]
    "bogus" 100 true false true true true [] [] [[1]] (by decide) (by decide)
    rfl⟩

/-- C5 counterexample: the claim says the unsupported-basis failure happens
before any matrix work, but on a corpus that defeats vectorization the error
that escapes is the vectorizer ValueError (which does not carry the basis
name), proving the vectorizers run before the basis check. -/
theorem unsupported_basis_cex :
    build_stoplist log10zero dedupSet tfOk1 idPre [[]] "bogus" 100 true false
      true true true [] []
    = .error (.valueError emptyVocabMsg) := rfl

/-- C6 (amended): requesting `basis='zou'` together with `inc_counts=True`
does not fail: no `UnsupportedOptionError` exists anywhere in the code, the
flag is silently ignored, and whenever vectorization succeeds the call
returns an ordinary result list. -/
theorem zou_inc_counts_no_error (log10 : ℚ → ℚ)
    (pySet : List String → List String)
    (tfidfFn : List Doc → Except PyError (List (List ℚ)))
    (preprocess : Bool → Bool → Bool → Doc → Doc) (texts : List Doc)
    (size : ℕ) (sw lo rp rn : Bool) (incl excl : List String)
    (T : List (List ℚ))
    (hv : vocabOf (texts.map (preprocess lo rp rn)) ≠ [])
    (htf : tfidfFn (texts.map (preprocess lo rp rn)) = .ok T) :
    ∃ l, build_stoplist log10 pySet tfidfFn preprocess texts "zou" size sw
      true lo rp rn incl excl = .ok l := by
  unfold build_stoplist
  rw [buildCore_eq _ _ _ _ _ _ _ _ _ T hv htf, basisBranch_zou]
  exact assemble_ok_of_not_set _ _ _ _

/-- Witness for the amended C6 on a one-document corpus. -/
theorem zou_inc_counts_no_error_witness :
    ∃ l, build_stoplist log10zero dedupSet tfOk1 idPre [["a"]] "zou" 100
      false true true true true [] [] = .ok l :=
  zou_inc_counts_no_error log10zero dedupSet tfOk1 idPre [["a"]] 100 false
    true true true [] [] [[1]] (by decide) rfl

/-- C6 counterexample: a concrete call with `basis='zou'` and
`inc_counts=True` returns a result instead of failing with any error. -/
theorem zou_inc_counts_cex :
    build_stoplist log10zero dedupSet tfOk1 idPre [["a"]] "zou" 100 false true
      true true true [] [] = .ok ["a"] := by
  norm_num +decide [build_stoplist, buildCore, make_dtm_vocab, vocabOf, dtmOf,
    countTok, raw_lengths, get_probabilities, basisBranch, assemble,
    combine_vocabulary, get_mean_probabilities, get_variance_probabilities,
    get_entropies, colSums, backgroundP, entCell, borda_sort, bordaScores,
    updateScore, tfOk1, idPre, log10zero, dedupSet, List.insertionSort,
    List.orderedInsert, List.zipWith, List.enum, List.enumFrom]

/-- C7 (amended): `build_stoplist` performs no input validation: even when
some document has token length zero, no `InvalidInputError` (which does not
exist in the code) is raised — `_get_probabilities` divides regardless
(numpy emits RuntimeWarning values, not an exception) and, whenever
vectorization succeeds, a supported basis returns an ordinary result.  An
empty corpus fails only inside the external vectorizer with its own
ValueError. -/
theorem zero_length_no_error (log10 : ℚ → ℚ)
    (pySet : List String → List String)
    (tfidfFn : List Doc → Except PyError (List (List ℚ)))
    (preprocess : Bool → Bool → Bool → Doc → Doc) (texts : List Doc)
    (basis : String) (size : ℕ) (sw ic lo rp rn : Bool) (excl : List String)
    (T : List (List ℚ)) (hb : basis ∈ supportedBases)
    (hzero : 0 ∈ raw_lengths (texts.map (preprocess lo rp rn)))
    (hv : vocabOf (texts.map (preprocess lo rp rn)) ≠ [])
    (htf : tfidfFn (texts.map (preprocess lo rp rn)) = .ok T) :
    ∃ l, build_stoplist log10 pySet tfidfFn preprocess texts basis size sw ic
      lo rp rn [] excl = .ok l := by
  unfold build_stoplist
  rw [buildCore_eq _ _ _ _ _ _ _ _ _ T hv htf]
  simp only [supportedBases, List.mem_cons, List.not_mem_nil, or_false] at hb
  rcases hb with rfl | rfl | rfl | rfl | rfl | rfl
  · rw [basisBranch_frequency]; exact assemble_ok_of_not_set _ _ _ _
  · rw [basisBranch_tfidf]; exact assemble_ok_of_not_set _ _ _ _
  · rw [basisBranch_mean]; exact assemble_ok_of_not_set _ _ _ _
  · rw [basisBranch_variance]; exact assemble_ok_of_not_set _ _ _ _
  · rw [basisBranch_entropy]; exact assemble_ok_of_incl_nil _ _ _ _
  · rw [basisBranch_zou]; exact assemble_ok_of_not_set _ _ _ _

/-- Witness for the amended C7: a corpus whose second document is empty. -/
theorem zero_length_no_error_witness :
    (0 ∈ raw_lengths ([["a"], []].map (idPre true true true))) ∧
    ∃ l, build_stoplist log10zero dedupSet tfOk1 idPre [["a"], []] "frequency"
      100 false false true true true [] [] = .ok l :=
  ⟨by decide, zero_length_no_error log10zero dedupSet tfOk1 idPre [["a"], []]
    "frequency" 100 false false true true true [] [[1]] (by decide) (by decide)
    (by decide) rfl⟩

/-- C7 counterexample: with a zero-length document in the corpus, the
concrete call returns a result; it does not fail with any error. -/
theorem zero_length_cex :
    build_stoplist log10zero dedupSet tfOk1 idPre [["a"], []] "frequency" 100
      false false true true true [] [] = .ok ["a"] := by
  norm_num +decide [build_stoplist, buildCore, make_dtm_vocab, vocabOf, dtmOf,
    countTok, raw_lengths, get_probabilities, basisBranch, assemble,
    combine_vocabulary, colSums, tfOk1, idPre, log10zero, dedupSet,
    List.insertionSort, List.orderedInsert, List.zipWith]

/-- C8 (amended): a term of the exclude list is absent from the output
provided it is not also in the include list (the include extension of source
line 319 runs after the exclusion filter of line 316 and re-appends any
include term, even an excluded one). -/
theorem exclude_not_in_output (log10 : ℚ → ℚ)
    (pySet : List String → List String)
    (tfidfFn : List Doc → Except PyError (List (List ℚ)))
    (preprocess : Bool → Bool → Bool → Doc → Doc) (texts : List Doc)
    (basis : String) (size : ℕ) (sw ic lo rp rn : Bool)
    (incl excl : List String) (stops : List String) (t : String)
    (h : build_stoplist log10 pySet tfidfFn preprocess texts basis size sw ic
      lo rp rn incl excl = .ok stops)
    (ht : t ∈ excl) (hti : t ∉ incl) : t ∉ stops := by
  unfold build_stoplist at h
  rcases hdv : make_dtm_vocab (texts.map (preprocess lo rp rn)) with e | dv
  · unfold buildCore at h
    rw [hdv] at h
    exact Except.noConfusion h
  have hv := (make_dtm_vocab_ok _ _ hdv).1
  rcases htf : tfidfFn (texts.map (preprocess lo rp rn)) with e | T
  · unfold buildCore at h
    rw [hdv, htf] at h
    exact Except.noConfusion h
  rw [buildCore_eq _ _ _ _ _ _ _ _ _ T hv htf] at h
  rcases hbb : basisBranch log10 pySet
      (vocabOf (texts.map (preprocess lo rp rn)))
      (dtmOf (texts.map (preprocess lo rp rn))) T
      (probMatrix (texts.map (preprocess lo rp rn)))
      (raw_lengths (texts.map (preprocess lo rp rn)))
      (texts.map (preprocess lo rp rn)).length
      (vocabOf (texts.map (preprocess lo rp rn))).length basis size
      with e | sb
  · rw [hbb] at h
    exact Except.noConfusion h
  rw [hbb] at h
  exact assemble_excl_not_mem _ _ _ _ _ _ _ h ht hti

/-- Witness for the amended C8: the excluded term "a" is kept out of the
output when it is not in the include list. -/
theorem exclude_not_in_output_witness :
    "a" ∈ ["a"] ∧ ("a" : String) ∉ ([] : List String) ∧
    "a" ∉ ["b"] :=
  ⟨by decide, by decide,
    exclude_not_in_output log10zero dedupSet tfOk2 idPre [["a", "b"]]
      "frequency" 100 false false true true true [] ["a"] ["b"] "a"
      (by norm_num +decide [build_stoplist, buildCore, make_dtm_vocab, vocabOf,
        dtmOf, countTok, raw_lengths, get_probabilities, basisBranch, assemble,
        combine_vocabulary, colSums, tfOk2, idPre, log10zero, dedupSet,
        List.insertionSort, List.orderedInsert, List.zipWith])
      (by decide) (by decide)⟩

/-- C8 counterexample: with `exclude=["a"]` and `include=["a"]` the excluded
term "a" is present in the returned list, because the include extension
re-appends it after the exclusion filter. -/
theorem exclude_cex :
    build_stoplist log10zero dedupSet tfOk2 idPre [["a", "b"]] "frequency" 100
      false false true true true ["a"] ["a"] = .ok ["b", "a"]
    ∧ "a" ∈ (["b", "a"] : List String) := by
  constructor
  · norm_num +decide [build_stoplist, buildCore, make_dtm_vocab, vocabOf,
      dtmOf, countTok, raw_lengths, get_probabilities, basisBranch, assemble,
      combine_vocabulary, colSums, tfOk2, idPre, log10zero, dedupSet,
      List.insertionSort, List.orderedInsert, List.zipWith]
  · decide

/-- Helper: lexLt is asymmetric. -/
theorem lexLt_asymm : ∀ x y : List Char, lexLt x y = true → lexLt y x = false
  | [], [], h => by simp [lexLt] at h
  | [], _ :: _, _ => rfl
  | _ :: _, [], h => by simp [lexLt] at h
  | a :: as, b :: bs, h => by
    simp only [lexLt, Bool.or_eq_true, Bool.and_eq_true, decide_eq_true_eq] at h ⊢
    rcases h with h | ⟨he, hr⟩
    · simp only [Bool.or_eq_false_iff, Bool.and_eq_false_iff]
      constructor
      · simpa using Nat.le_of_lt h
      · left; simpa using Nat.ne_of_gt h
    · simp only [Bool.or_eq_false_iff, Bool.and_eq_false_iff]
      constructor
      · simpa using Nat.le_of_eq he
      · right; exact lexLt_asymm as bs hr

/-- Helper: lexLt is transitive. -/
theorem lexLt_trans : ∀ x y z : List Char,
    lexLt x y = true → lexLt y z = true → lexLt x z = true
  | [], [], _, h, _ => by simp [lexLt] at h
  | [], _ :: _, [], _, h => by simp [lexLt] at h
  | [], _ :: _, _ :: _, _, _ => rfl
  | _ :: _, [], _, h, _ => by simp [lexLt] at h
  | _ :: _, _ :: _, [], _, h => by simp [lexLt] at h
  | a :: as, b :: bs, c :: cs, h1, h2 => by
    simp only [lexLt, Bool.or_eq_true, Bool.and_eq_true, decide_eq_true_eq]
      at h1 h2 ⊢
    rcases h1 with h1 | ⟨he1, hr1⟩ <;> rcases h2 with h2 | ⟨he2, hr2⟩
    · exact Or.inl (Nat.lt_trans h1 h2)
    · exact Or.inl (he2 ▸ h1)
    · exact Or.inl (he1 ▸ h2)
    · exact Or.inr ⟨he1.trans he2, lexLt_trans as bs cs hr1 hr2⟩

/-- Helper: lexLt is connected: mutually non-less lists are equal. -/
theorem lexLt_conn : ∀ x y : List Char,
    lexLt x y = false → lexLt y x = false → x = y
  | [], [], _, _ => rfl
  | [], _ :: _, h, _ => by simp [lexLt] at h
  | _ :: _, [], _, h => by simp [lexLt] at h
  | a :: as, b :: bs, h1, h2 => by
    simp only [lexLt, Bool.or_eq_false_iff, Bool.and_eq_false_iff,
      decide_eq_false_iff_not] at h1 h2
    obtain ⟨hab, h1'⟩ := h1
    obtain ⟨hba, h2'⟩ := h2
    have he : a.toNat = b.toNat := Nat.le_antisymm (Nat.le_of_not_lt hba)
      (Nat.le_of_not_lt hab)
    have htl : as = bs := by
      rcases h1' with h1' | h1'
      · exact absurd he h1'
      · rcases h2' with h2' | h2'
        · exact absurd he.symm h2'
        · exact lexLt_conn as bs h1' h2'
    have hc : a = b := Char.eq_of_val_eq (UInt32.ext he)
    rw [hc, htl]

/-- Helper: the Python string order is total. -/
theorem pyLe_total (a b : String) : pyLe a b = true ∨ pyLe b a = true := by
  unfold pyLe
  by_cases h : lexLt b.data a.data = true
  · right
    simp [lexLt_asymm _ _ h]
  · left
    simp [Bool.not_eq_true] at h
    simp [h]

/-- Helper: the Python string order is transitive. -/
theorem pyLe_trans (a b c : String) (h1 : pyLe a b = true)
    (h2 : pyLe b c = true) : pyLe a c = true := by
  unfold pyLe at h1 h2 ⊢
  simp only [Bool.not_eq_true', Bool.not_eq_true] at h1 h2 ⊢
  by_cases hca : lexLt c.data a.data = true
  · by_cases hbc : lexLt b.data c.data = true
    · exact absurd (lexLt_trans _ _ _ hbc hca) (by simp [h1])
    · have hcb : b.data = c.data :=
        lexLt_conn _ _ (by simpa using hbc) h2
      exact absurd (hcb ▸ hca) (by simp [h1])
  · simpa using hca

/-- Helper: the vocabulary has no duplicate terms. -/
theorem vocabOf_nodup (texts : List Doc) : (vocabOf texts).Nodup := by
  unfold vocabOf
  exact ((List.perm_insertionSort _ _).nodup_iff).mpr (List.nodup_dedup _)

/-- Helper: every term `_combine_vocabulary` returns comes from the
vocabulary. -/
theorem mem_of_mem_combine (vocab : List String) (v : List ℚ) (t : String)
    (h : t ∈ combine_vocabulary vocab v) : t ∈ vocab := by
  unfold combine_vocabulary at h
  rcases List.mem_map.mp h with ⟨p, hp, rfl⟩
  exact (List.of_mem_zip ((List.perm_insertionSort _ _).mem_iff.mp hp)).1

/-- Helper: membership in `insertKey`. -/
theorem mem_insertKey (acc : List String) (x y : String) :
    y ∈ insertKey acc x ↔ y ∈ acc ∨ y = x := by
  unfold insertKey
  by_cases h : x ∈ acc
  · rw [if_pos h]
    exact ⟨Or.inl, fun hh => hh.elim id (fun he => he ▸ h)⟩
  · rw [if_neg h]
    simp

/-- Helper: membership in a fold of `insertKey`. -/
theorem mem_foldl_insertKey (xs : List String) (acc : List String)
    (y : String) : y ∈ xs.foldl insertKey acc ↔ y ∈ acc ∨ y ∈ xs := by
  induction xs generalizing acc with
  | nil => simp
  | cons x xs ih =>
    rw [List.foldl_cons, ih, mem_insertKey]
    simp [or_assoc]

/-- Helper: the keys of an updated score dictionary. -/
theorem updateScore_fst (m : List (String × ℕ)) (e : String) (v : ℕ) :
    (updateScore m e v).map Prod.fst = insertKey (m.map Prod.fst) e := by
  induction m with
  | nil => simp [updateScore, insertKey]
  | cons q m ih =>
    obtain ⟨k, s⟩ := q
    by_cases hk : k = e
    · subst hk
      simp only [updateScore, eq_self_iff_true, if_true, ite_true,
        List.map_cons]
      rw [insertKey, if_pos (List.mem_cons_self _ _)]
    · simp only [updateScore, if_neg hk, List.map_cons, ih]
      by_cases he : e ∈ m.map Prod.fst
      · rw [insertKey, if_pos he, insertKey,
          if_pos (List.mem_cons_of_mem _ he)]
      · rw [insertKey, if_neg he, insertKey,
          if_neg (by simp [he, Ne.symm hk]), List.cons_append]

/-- Helper: the keys of the score dictionary after folding a pair list. -/
theorem foldl_updateScore_fst (ps : List (ℕ × String))
    (m : List (String × ℕ)) :
    ((ps.foldl (fun m p => updateScore m p.2 p.1) m).map Prod.fst)
    = (ps.map Prod.snd).foldl insertKey (m.map Prod.fst) := by
  induction ps generalizing m with
  | nil => rfl
  | cons p ps ih =>
    rw [List.foldl_cons, List.map_cons, List.foldl_cons, ih, updateScore_fst]

/-- Helper: the `_borda_sort` score dictionary as one fold over the
concatenated traversal. -/
theorem bordaScores_eq (lists : List (List String)) :
    bordaScores lists
    = ((lists.map (fun l => l.reverse.enum)).flatten).foldl
        (fun m p => updateScore m p.2 p.1) [] := by
  rw [List.foldl_flatten, List.foldl_map]
  rfl

/-- Helper: the keys of the Borda score dictionary are exactly the members of
the input lists. -/
theorem mem_fst_bordaScores (lists : List (List String)) (t : String) :
    t ∈ (bordaScores lists).map Prod.fst ↔ ∃ l ∈ lists, t ∈ l := by
  rw [bordaScores_eq, foldl_updateScore_fst]
  show t ∈ List.foldl insertKey (([] : List (String × ℕ)).map Prod.fst) _ ↔ _
  rw [mem_foldl_insertKey]
  simp only [List.map_nil, List.not_mem_nil, false_or, List.map_flatten,
    List.map_map, List.mem_flatten, List.mem_map]
  constructor
  · rintro ⟨l', ⟨l, hl, rfl⟩, hm⟩
    refine ⟨l, hl, ?_⟩
    simp only [Function.comp] at hm
    rw [List.enum_map_snd] at hm
    exact List.mem_reverse.mp hm
  · rintro ⟨l, hl, hm⟩
    refine ⟨(l.reverse.enum).map Prod.snd, ⟨l, hl, rfl⟩, ?_⟩
    rw [List.enum_map_snd]
    exact List.mem_reverse.mpr hm

/-- Helper: every term `_borda_sort` returns occurs in one of the input
lists. -/
theorem mem_of_mem_borda (lists : List (List String)) (t : String)
    (h : t ∈ borda_sort lists) : ∃ l ∈ lists, t ∈ l := by
  unfold borda_sort at h
  rcases List.mem_map.mp h with ⟨p, hp, rfl⟩
  refine (mem_fst_bordaScores lists p.1).mp ?_
  exact List.mem_map.mpr ⟨p, (List.perm_insertionSort _ _).mem_iff.mp hp, rfl⟩

/-- Helper: every supported basis returns at most `size` terms, all from the
vocabulary. -/
theorem basisBranch_bounds (log10 : ℚ → ℚ)
    (pySet : List String → List String) (vocab : List String)
    (dtm tfidfM P : List (List ℚ)) (raw : List ℕ) (N M size : ℕ)
    (basis : String) (s : List String) (b : Bool)
    (hset : PySetOk pySet) (hb : basis ∈ supportedBases)
    (h : basisBranch log10 pySet vocab dtm tfidfM P raw N M basis size
      = .ok (s, b)) :
    s.length ≤ size ∧ ∀ t ∈ s, t ∈ vocab := by
  have htake : ∀ l : List String, (l.take size).length ≤ size := fun l => by
    rw [List.length_take]; exact min_le_left _ _
  simp only [supportedBases, List.mem_cons, List.not_mem_nil, or_false] at hb
  rcases hb with rfl | rfl | rfl | rfl | rfl | rfl
  · rw [basisBranch_frequency] at h
    obtain ⟨rfl, -⟩ : (combine_vocabulary vocab (colSums dtm M)).take size = s
        ∧ false = b := by simpa using h
    exact ⟨htake _,
      fun t ht => mem_of_mem_combine _ _ _ (List.mem_of_mem_take ht)⟩
  · rw [basisBranch_tfidf] at h
    obtain ⟨rfl, -⟩ : (combine_vocabulary vocab (colSums tfidfM M)).take size
        = s ∧ false = b := by simpa using h
    exact ⟨htake _,
      fun t ht => mem_of_mem_combine _ _ _ (List.mem_of_mem_take ht)⟩
  · rw [basisBranch_mean] at h
    obtain ⟨rfl, -⟩ :
        (combine_vocabulary vocab (get_mean_probabilities P N M)).take size
        = s ∧ false = b := by simpa using h
    exact ⟨htake _,
      fun t ht => mem_of_mem_combine _ _ _ (List.mem_of_mem_take ht)⟩
  · rw [basisBranch_variance] at h
    obtain ⟨rfl, -⟩ : (combine_vocabulary vocab
        (get_variance_probabilities (backgroundP dtm raw.sum) P N M)).take size
        = s ∧ false = b := by simpa using h
    exact ⟨htake _,
      fun t ht => mem_of_mem_combine _ _ _ (List.mem_of_mem_take ht)⟩
  · rw [basisBranch_entropy] at h
    obtain ⟨rfl, -⟩ : pySet
        ((combine_vocabulary vocab (get_entropies log10 P M)).take size) = s
        ∧ true = b := by simpa using h
    constructor
    · rw [(hset _).length_eq]
      exact le_trans (List.dedup_sublist _).length_le (htake _)
    · intro t ht
      have hd := (hset _).mem_iff.mp ht
      exact mem_of_mem_combine _ _ _
        (List.mem_of_mem_take (List.mem_dedup.mp hd))
  · rw [basisBranch_zou] at h
    obtain ⟨rfl, -⟩ : (borda_sort
        [combine_vocabulary vocab (get_mean_probabilities P N M),
         combine_vocabulary vocab
           (get_variance_probabilities (backgroundP dtm raw.sum) P N M),
         combine_vocabulary vocab (get_entropies log10 P M)]).take size = s
        ∧ false = b := by simpa using h
    refine ⟨htake _, fun t ht => ?_⟩
    rcases mem_of_mem_borda _ _ (List.mem_of_mem_take ht) with ⟨l, hl, hm⟩
    simp only [List.mem_cons, List.not_mem_nil, or_false] at hl
    rcases hl with rfl | rfl | rfl <;> exact mem_of_mem_combine _ _ _ hm

/-- C2: for every supported basis, a successful `build_stoplist` call with
default include/exclude lists returns at most `size` terms, each a member of
the vocabulary the vectorizer produced for the preprocessed corpus. -/
theorem build_stoplist_size_and_vocab (log10 : ℚ → ℚ)
    (pySet : List String → List String)
    (tfidfFn : List Doc → Except PyError (List (List ℚ)))
    (preprocess : Bool → Bool → Bool → Doc → Doc) (texts : List Doc)
    (basis : String) (size : ℕ) (sw ic lo rp rn : Bool)
    (stops : List String) (hset : PySetOk pySet) (hb : basis ∈ supportedBases)
    (h : build_stoplist log10 pySet tfidfFn preprocess texts basis size sw ic
      lo rp rn [] [] = .ok stops) :
    stops.length ≤ size
    ∧ ∀ t ∈ stops, t ∈ vocabOf (texts.map (preprocess lo rp rn)) := by
  unfold build_stoplist at h
  rcases hdv : make_dtm_vocab (texts.map (preprocess lo rp rn)) with e | dv
  · unfold buildCore at h
    rw [hdv] at h
    exact Except.noConfusion h
  have hv := (make_dtm_vocab_ok _ _ hdv).1
  rcases htf : tfidfFn (texts.map (preprocess lo rp rn)) with e | T
  · unfold buildCore at h
    rw [hdv, htf] at h
    exact Except.noConfusion h
  rw [buildCore_eq _ _ _ _ _ _ _ _ _ T hv htf] at h
  rcases hbb : basisBranch log10 pySet
      (vocabOf (texts.map (preprocess lo rp rn)))
      (dtmOf (texts.map (preprocess lo rp rn))) T
      (probMatrix (texts.map (preprocess lo rp rn)))
      (raw_lengths (texts.map (preprocess lo rp rn)))
      (texts.map (preprocess lo rp rn)).length
      (vocabOf (texts.map (preprocess lo rp rn))).length basis size
      with e | sb
  · rw [hbb] at h
    exact Except.noConfusion h
  rw [hbb] at h
  obtain ⟨s, b⟩ := sb
  have hperm := assemble_nil_nil _ _ _ _ h
  obtain ⟨hlen, hmem⟩ := basisBranch_bounds _ _ _ _ _ _ _ _ _ _ _ _ _
    hset hb hbb
  exact ⟨le_of_eq_of_le hperm.length_eq hlen,
    fun t ht => hmem t (hperm.mem_iff.mp ht)⟩

/-- Witness for C2 on a concrete frequency-basis call. -/
theorem build_stoplist_size_and_vocab_witness :
    (["a"] : List String).length ≤ 100
    ∧ ∀ t ∈ (["a"] : List String),
        t ∈ vocabOf ([["a"]].map (idPre true true true)) :=
  build_stoplist_size_and_vocab log10zero dedupSet tfOk1 idPre [["a"]]
    "frequency" 100 false false true true true ["a"]
    (fun _ => List.Perm.refl _) (by decide)
    (by norm_num +decide [build_stoplist, buildCore, make_dtm_vocab, vocabOf,
      dtmOf, countTok, raw_lengths, get_probabilities, basisBranch, assemble,
      combine_vocabulary, colSums, tfOk1, idPre, log10zero, dedupSet,
      List.insertionSort, List.orderedInsert, List.zipWith])

/-- Helper: with `sort_words=True` any successful `assemble` output is
sorted in the Python string order. -/
theorem assemble_sorted (stops : List String) (isSet : Bool)
    (excl incl : List String) (stops' : List String)
    (h : assemble stops isSet excl incl true = .ok stops') :
    stops'.Pairwise (fun a b => pyLe a b = true) := by
  haveI : IsTotal String (fun a b => pyLe a b = true) := ⟨pyLe_total⟩
  haveI : IsTrans String (fun a b => pyLe a b = true) := ⟨pyLe_trans⟩
  by_cases hexcl : excl = []
  · by_cases hcond : incl ≠ [] ∧ isSet = true
    · simp [assemble, hexcl, hcond] at h
    · simp only [assemble, hexcl, hcond, ne_eq, not_true_eq_false, if_false,
        ite_false, if_true, ite_true, Except.ok.injEq] at h
      rw [← h]
      exact List.sorted_insertionSort _ _
  · simp only [assemble, hexcl, ne_eq, not_false_eq_true, if_true, ite_true,
      Bool.false_eq_true, and_false, if_false, ite_false,
      Except.ok.injEq] at h
    rw [← h]
    exact List.sorted_insertionSort _ _

/-- Helper: with `sort_words=False` and an empty include list, a successful
`assemble` output is a sublist of its input. -/
theorem assemble_false_sublist (stops : List String) (isSet : Bool)
    (excl : List String) (stops' : List String)
    (h : assemble stops isSet excl [] false = .ok stops') :
    stops'.Sublist stops := by
  by_cases hexcl : excl = []
  · simp only [assemble, hexcl, ne_eq, not_true_eq_false, false_and,
      if_false, ite_false, Bool.false_eq_true, Except.ok.injEq] at h
    exact h ▸ List.Sublist.refl _
  · simp only [assemble, hexcl, ne_eq, not_true_eq_false, false_and,
      not_false_eq_true, if_true, ite_true, if_false, ite_false,
      Bool.false_eq_true, Except.ok.injEq] at h
    exact h ▸ List.filter_sublist _

/-- Helper: the rank of the term at position `i` of a duplicate-free list is
`i`. -/
theorem idxOfStr_getElem (l : List String) (i : ℕ) (hi : i < l.length)
    (hn : l.Nodup) : idxOfStr l (l[i]) = i := by
  induction l generalizing i with
  | nil => simp at hi
  | cons a l ih =>
    rcases List.nodup_cons.mp hn with ⟨ha, hn'⟩
    cases i with
    | zero => simp [idxOfStr]
    | succ i =>
      have hi' : i < l.length := by simpa using hi
      have hne : a ≠ (a :: l)[i + 1] := by
        intro he
        exact ha (he ▸ List.getElem_mem (by simpa using hi'))
      simp only [idxOfStr, if_neg hne]
      have : (a :: l)[i + 1] = l[i] := by simp
      rw [this, ih i hi' hn']

/-- Helper: a pair of the vocabulary-score zip evaluates `termScore` to its
second component. -/
theorem termScore_zip (vocab : List String) (vec : List ℚ) (t : String)
    (v : ℚ) (hn : vocab.Nodup) (hm : (t, v) ∈ vocab.zip vec) :
    termScore vocab vec t = v := by
  rcases List.mem_iff_get.mp hm with ⟨n, hget⟩
  have hn1 : (n : ℕ) < (vocab.zip vec).length := n.isLt
  rw [List.get_eq_getElem, List.getElem_zip] at hget
  have hvl : (n : ℕ) < vocab.length :=
    lt_of_lt_of_le hn1 (by rw [List.length_zip]; exact min_le_left _ _)
  have hel : (n : ℕ) < vec.length :=
    lt_of_lt_of_le hn1 (by rw [List.length_zip]; exact min_le_right _ _)
  have ht : vocab[(n : ℕ)] = t := (Prod.mk.injEq _ _ _ _ ▸ hget).1
  have hv : vec[(n : ℕ)] = v := (Prod.mk.injEq _ _ _ _ ▸ hget).2
  rw [termScore, ← ht, idxOfStr_getElem vocab _ hvl hn,
    List.getD_eq_getElem _ _ hel, hv]

/-- Helper: `_combine_vocabulary` output is descending in the scores the
vector assigns to the terms. -/
theorem combine_pairwise (vocab : List String) (vec : List ℚ)
    (hn : vocab.Nodup) :
    (combine_vocabulary vocab vec).Pairwise
      (fun a b => termScore vocab vec b ≤ termScore vocab vec a) := by
  haveI : IsTotal (String × ℚ) (fun a b => b.2 ≤ a.2) :=
    ⟨fun a b => le_total b.2 a.2⟩
  haveI : IsTrans (String × ℚ) (fun a b => b.2 ≤ a.2) :=
    ⟨fun _ _ _ h1 h2 => le_trans h2 h1⟩
  have hs := List.sorted_insertionSort (fun a b : String × ℚ => b.2 ≤ a.2)
    (vocab.zip vec)
  unfold combine_vocabulary
  rw [List.pairwise_map]
  refine hs.imp_of_mem ?_
  intro p q hp hq hr
  have hp' := (List.perm_insertionSort _ _).mem_iff.mp hp
  have hq' := (List.perm_insertionSort _ _).mem_iff.mp hq
  rw [termScore_zip vocab vec p.1 p.2 hn hp',
    termScore_zip vocab vec q.1 q.2 hn hq']
  exact hr

/-- C9 (amended): with `sort_words=True` the returned list is ascending in
the Python string order; with `sort_words=False` (and no include additions)
the returned list is descending in the basis score for the frequency, tfidf,
mean and variance bases.  The entropy basis is excluded: its result passes
through an unordered Python set, so no order is guaranteed (see the
counterexample). -/
theorem build_stoplist_order (log10 : ℚ → ℚ)
    (pySet : List String → List String)
    (tfidfFn : List Doc → Except PyError (List (List ℚ)))
    (preprocess : Bool → Bool → Bool → Doc → Doc) (texts : List Doc)
    (basis : String) (size : ℕ) (sw ic lo rp rn : Bool)
    (incl excl : List String) (stops : List String) (T : List (List ℚ))
    (htf : tfidfFn (texts.map (preprocess lo rp rn)) = .ok T)
    (h : build_stoplist log10 pySet tfidfFn preprocess texts basis size sw ic
      lo rp rn incl excl = .ok stops) :
    (sw = true → stops.Pairwise (fun a b => pyLe a b = true))
    ∧ (sw = false → incl = [] →
        basis ∈ ["frequency", "tfidf", "mean", "variance"] →
        stops.Pairwise (fun a b =>
          termScore (vocabOf (texts.map (preprocess lo rp rn)))
            (scoreVecT log10 (texts.map (preprocess lo rp rn)) T basis) b
          ≤ termScore (vocabOf (texts.map (preprocess lo rp rn)))
            (scoreVecT log10 (texts.map (preprocess lo rp rn)) T basis) a)) := by
  unfold build_stoplist at h
  rcases hdv : make_dtm_vocab (texts.map (preprocess lo rp rn)) with e | dv
  · unfold buildCore at h
    rw [hdv] at h
    exact Except.noConfusion h
  have hv := (make_dtm_vocab_ok _ _ hdv).1
  rw [buildCore_eq _ _ _ _ _ _ _ _ _ T hv htf] at h
  rcases hbb : basisBranch log10 pySet
      (vocabOf (texts.map (preprocess lo rp rn)))
      (dtmOf (texts.map (preprocess lo rp rn))) T
      (probMatrix (texts.map (preprocess lo rp rn)))
      (raw_lengths (texts.map (preprocess lo rp rn)))
      (texts.map (preprocess lo rp rn)).length
      (vocabOf (texts.map (preprocess lo rp rn))).length basis size
      with e | sb
  · rw [hbb] at h
    exact Except.noConfusion h
  rw [hbb] at h
  constructor
  · rintro rfl
    exact assemble_sorted _ _ _ _ _ h
  · rintro rfl rfl hb
    have hsub := assemble_false_sublist _ _ _ _ h
    simp only [List.mem_cons, List.not_mem_nil, or_false] at hb
    have hnd := vocabOf_nodup (texts.map (preprocess lo rp rn))
    rcases hb with rfl | rfl | rfl | rfl
    · rw [basisBranch_frequency] at hbb
      obtain rfl : sb = ((combine_vocabulary _ (colSums
          (dtmOf (texts.map (preprocess lo rp rn)))
          (vocabOf (texts.map (preprocess lo rp rn))).length)).take size,
          false) := by simpa using hbb.symm
      exact (combine_pairwise _ _ hnd).sublist
        (hsub.trans (List.take_sublist _ _))
    · rw [basisBranch_tfidf] at hbb
      obtain rfl : sb = ((combine_vocabulary _ (colSums T
          (vocabOf (texts.map (preprocess lo rp rn))).length)).take size,
          false) := by simpa using hbb.symm
      exact (combine_pairwise _ _ hnd).sublist
        (hsub.trans (List.take_sublist _ _))
    · rw [basisBranch_mean] at hbb
      obtain rfl : sb = ((combine_vocabulary _ (get_mean_probabilities
          (probMatrix (texts.map (preprocess lo rp rn)))
          (texts.map (preprocess lo rp rn)).length
          (vocabOf (texts.map (preprocess lo rp rn))).length)).take size,
          false) := by simpa using hbb.symm
      exact (combine_pairwise _ _ hnd).sublist
        (hsub.trans (List.take_sublist _ _))
    · rw [basisBranch_variance] at hbb
      obtain rfl : sb = ((combine_vocabulary _ (get_variance_probabilities
          (backgroundP (dtmOf (texts.map (preprocess lo rp rn)))
            (raw_lengths (texts.map (preprocess lo rp rn))).sum)
          (probMatrix (texts.map (preprocess lo rp rn)))
          (texts.map (preprocess lo rp rn)).length
          (vocabOf (texts.map (preprocess lo rp rn))).length)).take size,
          false) := by simpa using hbb.symm
      exact (combine_pairwise _ _ hnd).sublist
        (hsub.trans (List.take_sublist _ _))

/-- Witness for the amended C9 on a concrete frequency-basis call with
`sort_words=False`. -/
theorem build_stoplist_order_witness :
    (false = true → (["a"] : List String).Pairwise
      (fun a b => pyLe a b = true))
    ∧ (false = false → ([] : List String) = [] →
        "frequency" ∈ ["frequency", "tfidf", "mean", "variance"] →
        (["a"] : List String).Pairwise (fun a b =>
          termScore (vocabOf ([["a"]].map (idPre true true true)))
            (scoreVecT log10zero ([["a"]].map (idPre true true true)) [[1]]
              "frequency") b
          ≤ termScore (vocabOf ([["a"]].map (idPre true true true)))
            (scoreVecT log10zero ([["a"]].map (idPre true true true)) [[1]]
              "frequency") a)) :=
  build_stoplist_order log10zero dedupSet tfOk1 idPre [["a"]] "frequency" 100
    false false true true true [] [] ["a"] [[1]] rfl
    (by norm_num +decide [build_stoplist, buildCore, make_dtm_vocab, vocabOf,
      dtmOf, countTok, raw_lengths, get_probabilities, basisBranch, assemble,
      combine_vocabulary, colSums, tfOk1, idPre, log10zero, dedupSet,
      List.insertionSort, List.orderedInsert, List.zipWith])

/-- C9 counterexample: for the entropy basis with `sort_words=False` the
output passes through an unordered Python set; under a permissible set
iteration order the concrete output ["a", "b"] is not descending in the
entropy scores (term "b" scores 159/1000, term "a" only 44/375, with the
log10 stand-in agreeing with the true log10 at the evaluated points), so the
claim that every single basis yields a score-descending list is false. -/
theorem entropy_order_cex :
    build_stoplist log10cex revSet tfOk2 idPre [["a", "a", "b"]] "entropy" 100
      false false true true true [] [] = .ok ["a", "b"]
    ∧ ¬ (["a", "b"] : List String).Pairwise (fun x y =>
        termScore (vocabOf [["a", "a", "b"]])
          (scoreVecT log10cex [["a", "a", "b"]] [[1, 1]] "entropy") y
        ≤ termScore (vocabOf [["a", "a", "b"]])
          (scoreVecT log10cex [["a", "a", "b"]] [[1, 1]] "entropy") x)
    ∧ (revSet ["b", "a"]).Perm (["b", "a"] : List String).dedup := by
  refine ⟨?_, ?_, List.reverse_perm _⟩
  · norm_num +decide [build_stoplist, buildCore, make_dtm_vocab, vocabOf,
      dtmOf, countTok, raw_lengths, get_probabilities, basisBranch, assemble,
      combine_vocabulary, get_entropies, colSums, entCell, log10cex, revSet,
      tfOk2, idPre, List.insertionSort, List.orderedInsert, List.zipWith]
  · norm_num +decide [termScore, scoreVecT, entropyVec, get_entropies,
      probMatrix, get_probabilities, raw_lengths, dtmOf, vocabOf, countTok,
      colSums, entCell, idxOfStr, log10cex, List.insertionSort,
      List.orderedInsert, List.zipWith, List.pairwise_cons]

/-- Helper: accScore of an empty dictionary. -/
theorem accScore_nil (k : String) : accScore [] k = 0 := rfl

/-- Helper: accScore of a cons cell. -/
theorem accScore_cons (k0 : String) (s : ℕ) (m : List (String × ℕ))
    (k : String) :
    accScore ((k0, s) :: m) k = (if k0 = k then s else 0) + accScore m k := by
  by_cases h : k0 = k
  · simp [accScore, List.filter_cons, h]
  · simp [accScore, List.filter_cons, h]

/-- Helper: updating the score dictionary adds the value to exactly the
updated key. -/
theorem updateScore_accScore (m : List (String × ℕ)) (e : String) (v : ℕ)
    (k : String) :
    accScore (updateScore m e v) k
    = accScore m k + (if k = e then v else 0) := by
  induction m with
  | nil =>
    rw [show updateScore [] e v = [(e, v)] from rfl, accScore_cons]
    by_cases h : k = e
    · subst h
      simp [accScore_nil]
    · rw [if_neg (fun he => h he.symm), if_neg h]
      simp [accScore_nil]
  | cons q m ih =>
    obtain ⟨k0, s⟩ := q
    by_cases h0 : k0 = e
    · subst h0
      simp only [updateScore, eq_self_iff_true, if_true, ite_true]
      rw [accScore_cons, accScore_cons]
      by_cases hk : k0 = k
      · subst hk
        simp only [eq_self_iff_true, if_true, ite_true]
        omega
      · rw [if_neg hk, if_neg hk, if_neg (fun he => hk he.symm)]
        omega
    · simp only [updateScore, if_neg h0]
      rw [accScore_cons, accScore_cons, ih]
      omega

/-- Helper: folding a pair list into the score dictionary accumulates, per
key, the sum of the first components whose second component is that key. -/
theorem foldl_updateScore_accScore (ps : List (ℕ × String))
    (m : List (String × ℕ)) (k : String) :
    accScore (ps.foldl (fun m p => updateScore m p.2 p.1) m) k
    = accScore m k + ((ps.filter (fun p => p.2 == k)).map Prod.fst).sum := by
  induction ps generalizing m with
  | nil => simp
  | cons p ps ih =>
    rw [List.foldl_cons, ih, updateScore_accScore, List.filter_cons]
    by_cases h : p.2 = k
    · simp only [h, beq_self_eq_true, if_true, ite_true, List.map_cons,
        List.sum_cons, if_pos rfl]
      omega
    · have hb : (p.2 == k) = false := by simp [h]
      rw [hb, if_neg (show ¬ k = p.2 from fun he => h he.symm)]
      simp only [Bool.false_eq_true, if_false, ite_false]
      omega

/-- Helper: insertKey preserves distinctness of the accumulator. -/
theorem insertKey_nodup (acc : List String) (x : String) (h : acc.Nodup) :
    (insertKey acc x).Nodup := by
  unfold insertKey
  by_cases hx : x ∈ acc
  · rwa [if_pos hx]
  · rw [if_neg hx]
    rw [List.nodup_append]
    exact ⟨h, List.nodup_singleton _,
      fun a ha hm => hx ((List.mem_singleton.mp hm) ▸ ha)⟩

/-- Helper: a fold of insertKey over a distinct accumulator stays distinct. -/
theorem foldl_insertKey_nodup (xs : List String) (acc : List String)
    (h : acc.Nodup) : (xs.foldl insertKey acc).Nodup := by
  induction xs generalizing acc with
  | nil => exact h
  | cons x xs ih => exact ih _ (insertKey_nodup _ _ h)

/-- Helper: a key absent from the dictionary has score zero. -/
theorem accScore_eq_zero (m : List (String × ℕ)) (k : String)
    (h : k ∉ m.map Prod.fst) : accScore m k = 0 := by
  induction m with
  | nil => rfl
  | cons q m ih =>
    obtain ⟨k0, s⟩ := q
    simp only [List.map_cons, List.mem_cons, not_or] at h
    obtain ⟨h1, h2⟩ := h
    rw [accScore_cons, if_neg (fun he => h1 he.symm), ih h2]

/-- Helper: a dictionary with distinct keys is determined by its keys (in
order) and its score function. -/
theorem eq_keys_map_accScore (m : List (String × ℕ))
    (hm : (m.map Prod.fst).Nodup) :
    m = (m.map Prod.fst).map (fun k => (k, accScore m k)) := by
  induction m with
  | nil => rfl
  | cons q m ih =>
    obtain ⟨k0, s⟩ := q
    rw [List.map_cons] at hm
    rcases List.nodup_cons.mp hm with ⟨h0, hm'⟩
    simp only [List.map_cons]
    congr 1
    · rw [accScore_cons, if_pos rfl, accScore_eq_zero m k0 h0, Nat.add_zero]
    · have hpt : ∀ k ∈ m.map Prod.fst,
          (k, accScore ((k0, s) :: m) k) = (k, accScore m k) := by
        intro k hk
        have hne : k0 ≠ k := fun he => h0 (he ▸ hk)
        rw [accScore_cons, if_neg hne, Nat.zero_add]
      rw [List.map_congr_left hpt]
      exact ih hm'

/-- Helper: filtering an enumeration of a duplicate-free list for one value
leaves exactly its position (offset by the enumeration start). -/
theorem enumFrom_filter_map (r : List String) (k : String) (hr : r.Nodup) :
    ∀ n : ℕ, ((List.enumFrom n r).filter (fun p => p.2 == k)).map Prod.fst
    = if k ∈ r then [n + idxOfStr r k] else [] := by
  induction r with
  | nil => intro n; simp
  | cons a r ih =>
    intro n
    rcases List.nodup_cons.mp hr with ⟨ha, hr'⟩
    rw [List.enumFrom_cons, List.filter_cons]
    by_cases hak : a = k
    · subst hak
      have h1 : ((List.enumFrom (n + 1) r).filter
          (fun p => p.2 == a)).map Prod.fst = [] := by
        rw [ih hr' (n + 1), if_neg ha]
      simp only [beq_self_eq_true, if_true, ite_true, List.map_cons, h1]
      rw [if_pos (List.mem_cons_self _ _)]
      simp [idxOfStr]
    · rw [if_neg (show ¬ (((n, a).2 == k) = true) by simp [hak])]
      rw [ih hr' (n + 1)]
      by_cases hk : k ∈ r
      · rw [if_pos hk, if_pos (List.mem_cons_of_mem _ hk)]
        rw [show idxOfStr (a :: r) k = idxOfStr r k + 1 from by
          simp [idxOfStr, hak]]
        congr 1
        omega
      · rw [if_neg hk, if_neg (show k ∉ a :: r from by
          intro hm
          rcases List.mem_cons.mp hm with he | hm'
          · exact hak he.symm
          · exact hk hm')]

/-- Helper: the rank in a concatenation of a key of the left part. -/
theorem idxOfStr_append_left (l1 l2 : List String) (k : String)
    (h : k ∈ l1) : idxOfStr (l1 ++ l2) k = idxOfStr l1 k := by
  induction l1 with
  | nil => simp at h
  | cons a l1 ih =>
    by_cases ha : a = k
    · simp [idxOfStr, ha]
    · have h' : k ∈ l1 := by
        rcases List.mem_cons.mp h with he | h'
        · exact absurd he.symm ha
        · exact h'
      simp [idxOfStr, ha, ih h']

/-- Helper: the rank in a concatenation of a key absent from the left part. -/
theorem idxOfStr_append_right (l1 l2 : List String) (k : String)
    (h : k ∉ l1) : idxOfStr (l1 ++ l2) k = l1.length + idxOfStr l2 k := by
  induction l1 with
  | nil => simp
  | cons a l1 ih =>
    have ha : a ≠ k := fun he => h (he ▸ List.mem_cons_self _ _)
    have h' : k ∉ l1 := fun hm => h (List.mem_cons_of_mem _ hm)
    simp only [List.cons_append, idxOfStr, if_neg ha, List.length_cons,
      List.append_eq]
    rw [ih h']
    omega

/-- Helper: in a duplicate-free list, the rank from the back and the rank
from the front of a member add to length minus one. -/
theorem idxOfStr_reverse (l : List String) (k : String) (hn : l.Nodup)
    (hk : k ∈ l) :
    idxOfStr l.reverse k + idxOfStr l k + 1 = l.length := by
  induction l with
  | nil => simp at hk
  | cons a l ih =>
    rcases List.nodup_cons.mp hn with ⟨ha, hn'⟩
    rw [List.reverse_cons]
    by_cases hak : a = k
    · subst hak
      have hnr : a ∉ l.reverse := fun hm => ha (List.mem_reverse.mp hm)
      rw [idxOfStr_append_right _ _ _ hnr]
      simp only [idxOfStr, eq_self_iff_true, if_true, ite_true,
        List.length_reverse, List.length_cons]
    · have hk' : k ∈ l := by
        rcases List.mem_cons.mp hk with he | h'
        · exact absurd he.symm hak
        · exact h'
      have hkr : k ∈ l.reverse := List.mem_reverse.mpr hk'
      rw [idxOfStr_append_left _ _ _ hkr]
      have hih := ih hn' hk'
      simp only [idxOfStr, if_neg hak, List.length_cons]
      omega

/-- Helper: one list of the Borda traversal contributes, to a term, exactly
the positional score `list length - 1 - rank` the spec describes, or 0 when
the term is absent. -/
theorem perList_sum (l : List String) (k : String) (hn : l.Nodup) :
    (((l.reverse.enum).filter (fun p => p.2 == k)).map Prod.fst).sum
    = if k ∈ l then l.length - 1 - idxOfStr l k else 0 := by
  rw [List.enum_eq_enumFrom,
    enumFrom_filter_map l.reverse k (List.nodup_reverse.mpr hn) 0]
  by_cases hk : k ∈ l
  · rw [if_pos (List.mem_reverse.mpr hk), if_pos hk]
    have hrev := idxOfStr_reverse l k hn hk
    simp only [List.sum_cons, List.sum_nil]
    omega
  · rw [if_neg (fun hm => hk (List.mem_reverse.mp hm)), if_neg hk]
    rfl

/-- Helper: the `_borda_sort` score dictionary equals the spec-side pair
list: the first-encountered keys, each with the accumulated positional
score of the spec formula. -/
theorem bordaScores_eq_spec (lists : List (List String))
    (hn : ∀ l ∈ lists, l.Nodup) :
    bordaScores lists = bordaSpecPairs lists := by
  have hkeys : (bordaScores lists).map Prod.fst = encounterKeys lists := by
    rw [bordaScores_eq, foldl_updateScore_fst]
    show (List.map Prod.snd _).foldl insertKey
      (([] : List (String × ℕ)).map Prod.fst) = _
    rw [List.map_flatten, List.map_map]
    have h1 : lists.map (List.map Prod.snd ∘ fun l => l.reverse.enum)
        = lists.map List.reverse :=
      List.map_congr_left (fun l _ => by
        simp only [Function.comp]
        exact List.enum_map_snd _)
    rw [h1]
    rfl
  have hnodup : ((bordaScores lists).map Prod.fst).Nodup := by
    rw [hkeys]
    exact foldl_insertKey_nodup _ _ List.nodup_nil
  have hacc : ∀ k, accScore (bordaScores lists) k = bordaSpecScore lists k := by
    intro k
    rw [bordaScores_eq, foldl_updateScore_accScore]
    rw [show accScore [] k = 0 from rfl, Nat.zero_add]
    rw [List.filter_flatten, List.map_flatten, List.sum_flatten,
      List.map_map, List.map_map, List.map_map]
    unfold bordaSpecScore
    congr 1
    refine List.map_congr_left ?_
    intro l hl
    show (((l.reverse.enum).filter (fun p => p.2 == k)).map Prod.fst).sum = _
    exact perList_sum l k (hn l hl)
  calc bordaScores lists
      = ((bordaScores lists).map Prod.fst).map
          (fun k => (k, accScore (bordaScores lists) k)) :=
        eq_keys_map_accScore _ hnodup
    _ = (encounterKeys lists).map (fun k => (k, bordaSpecScore lists k)) := by
        rw [hkeys]
        exact List.map_congr_left (fun k _ => by rw [hacc])
    _ = bordaSpecPairs lists := rfl

/-- C1: `_borda_sort` (used by the zou composite basis on the mean, variance
and entropy ranked lists, which are duplicate-free permutations of the
vocabulary) awards each term, per input list, `list length - 1 - rank`
(i.e., the index it receives while the list is traversed from its end),
accumulates the scores per term, and returns all terms of the input lists
sorted descending by accumulated score, stably in the order the traversal
first encounters them: it equals the spec-side stable sort, its terms are
exactly the members of the input lists, and it is descending in the spec
score. -/
theorem borda_sort_spec (lists : List (List String))
    (hn : ∀ l ∈ lists, l.Nodup) :
    borda_sort lists = bordaSpecSort lists
    ∧ (∀ t, t ∈ borda_sort lists ↔ ∃ l ∈ lists, t ∈ l)
    ∧ (borda_sort lists).Pairwise
        (fun a b => bordaSpecScore lists b ≤ bordaSpecScore lists a) := by
  have hspec := bordaScores_eq_spec lists hn
  refine ⟨?_, ?_, ?_⟩
  · unfold borda_sort bordaSpecSort
    rw [hspec]
  · intro t
    constructor
    · exact fun h => mem_of_mem_borda lists t h
    · rintro ⟨l, hl, hm⟩
      have hf : t ∈ (bordaScores lists).map Prod.fst :=
        (mem_fst_bordaScores lists t).mpr ⟨l, hl, hm⟩
      rcases List.mem_map.mp hf with ⟨p, hp, rfl⟩
      exact List.mem_map.mpr
        ⟨p, (List.perm_insertionSort _ _).mem_iff.mpr hp, rfl⟩
  · haveI : IsTotal (String × ℕ) (fun a b => b.2 ≤ a.2) :=
      ⟨fun a b => le_total b.2 a.2⟩
    haveI : IsTrans (String × ℕ) (fun a b => b.2 ≤ a.2) :=
      ⟨fun _ _ _ h1 h2 => le_trans h2 h1⟩
    have hs := List.sorted_insertionSort (fun a b : String × ℕ => b.2 ≤ a.2)
      (bordaScores lists)
    unfold borda_sort
    rw [List.pairwise_map]
    refine hs.imp_of_mem ?_
    intro p q hp hq hr
    have hp' := (List.perm_insertionSort _ _).mem_iff.mp hp
    have hq' := (List.perm_insertionSort _ _).mem_iff.mp hq
    rw [hspec] at hp' hq'
    rcases List.mem_map.mp hp' with ⟨k1, -, hk1⟩
    rcases List.mem_map.mp hq' with ⟨k2, -, hk2⟩
    have h1 : p.2 = bordaSpecScore lists p.1 := by rw [← hk1]
    have h2 : q.2 = bordaSpecScore lists q.1 := by rw [← hk2]
    rw [← h1, ← h2]
    exact hr

/-- Witness for C1 on two tied two-element lists. -/
theorem borda_sort_spec_witness :
    borda_sort [["a", "b"], ["b", "a"]] = bordaSpecSort [["a", "b"], ["b", "a"]]
    ∧ ("a" ∈ borda_sort [["a", "b"], ["b", "a"]]
        ↔ ∃ l ∈ [["a", "b"], ["b", "a"]], "a" ∈ l)
    ∧ (borda_sort [["a", "b"], ["b", "a"]]).Pairwise
        (fun a b => bordaSpecScore [["a", "b"], ["b", "a"]] b
          ≤ bordaSpecScore [["a", "b"], ["b", "a"]] a) :=
  ⟨(borda_sort_spec [["a", "b"], ["b", "a"]] (by decide)).1,
   (borda_sort_spec [["a", "b"], ["b", "a"]] (by decide)).2.1 "a",
   (borda_sort_spec [["a", "b"], ["b", "a"]] (by decide)).2.2⟩

end Lemmas

end CltkStop
